import Mathlib

/-!
# Verification of the fuzzy PDF-matching core of `src/server.js`

Shallow embedding of the three pure functions `normalizeName`, `scoreMatch`
and `findPdfByName` from `src/server.js`, with strings modelled as `List Char`
(JS strings restricted to the characters actually reachable here).

JS specifics embedded faithfully:
* `String.prototype.toLowerCase` on the characters that survive the
  `[^a-z0-9\s]` filter agrees with ASCII lowering, embedded via `Char.toLower`;
* the regex class `\s` is the explicit JS whitespace set (`jsWs`);
* `String.prototype.includes` is contiguous-substring containment
  (`jsIncludes`);
* `String.prototype.split(" ")` splits on single-space separators, keeping
  empty pieces (`splitSp`), and `.filter(Boolean)` drops the empty pieces;
* `Math.round` on the non-negative rational `hits / max(1, n) * 500` is
  `⌊x + 1/2⌋`, computed on naturals as `(1000 * hits + n) / (2 * n)`;
* the `for (const row of PDF_TABLE)` scan with the mutable
  `best / bestScore / secondBestScore` triple is a left fold (`scanStep`,
  `scanTable`); the table is passed explicitly in place of the global
  `PDF_TABLE`.
-/

/-- The JS regex class `\s` (also the set trimmed by `String.prototype.trim`):
tab, LF, VT, FF, CR, space, NBSP, ogham space, the U+2000–U+200A range,
LS, PS, NNBSP, MMSP, ideographic space, BOM. -/
def jsWs (c : Char) : Bool :=
  c.toNat == 9 || c.toNat == 10 || c.toNat == 11 || c.toNat == 12 ||
  c.toNat == 13 || c.toNat == 32 || c.toNat == 160 || c.toNat == 5760 ||
  (8192 ≤ c.toNat && c.toNat ≤ 8202) || c.toNat == 8232 ||
  c.toNat == 8233 || c.toNat == 8239 || c.toNat == 8287 ||
  c.toNat == 12288 || c.toNat == 65279

/-- A character in `a`–`z` or `0`–`9` (the characters the regex
`[^a-z0-9\s]` keeps, besides whitespace). -/
def isLowDigit (c : Char) : Bool :=
  (97 ≤ c.toNat && c.toNat ≤ 122) || (48 ≤ c.toNat && c.toNat ≤ 57)

/-- The characters kept by `.replace(/[^a-z0-9\s]/g, "")`. -/
def keepChar (c : Char) : Bool := isLowDigit c || jsWs c

/-- A character allowed in a normalized name: lowercase letter, digit,
or the single space `' '`. -/
def goodChar (c : Char) : Bool := isLowDigit c || c == ' '

/-- Embeds `.replace(/\s+/g, " ")`: each maximal run of whitespace becomes
one space.  The boolean state records whether we are inside a whitespace run. -/
def collapseWs : Bool → List Char → List Char
  | _, [] => []
  | false, c :: t =>
    if jsWs c then ' ' :: collapseWs true t else c :: collapseWs false t
  | true, c :: t =>
    if jsWs c then collapseWs true t else c :: collapseWs false t

/-- Embeds `.trim()`: drop whitespace from both ends. -/
def trimWs (l : List Char) : List Char :=
  ((l.dropWhile jsWs).reverse.dropWhile jsWs).reverse

/-- Embeds `normalizeName` from `src/server.js` (lines 55–61): lower-case, strip
characters outside `[a-z0-9\s]`, collapse whitespace runs to single spaces,
trim. -/
def normalizeName (s : List Char) : List Char :=
  trimWs (collapseWs false ((s.map Char.toLower).filter keepChar))

/-- Does `l` start with `p`? (helper for `jsIncludes`). -/
def startsWithL : List Char → List Char → Bool
  | _, [] => true
  | [], _ :: _ => false
  | a :: l, b :: m => a == b && startsWithL l m

/-- JS `haystack.includes(needle)`: contiguous substring containment. -/
def jsIncludes : List Char → List Char → Bool
  | [], needle => needle.isEmpty
  | h :: t, needle => startsWithL (h :: t) needle || jsIncludes t needle

/-- Accumulator for `splitSp`. -/
def splitSpAux : List Char → List Char → List (List Char)
  | cur, [] => [cur.reverse]
  | cur, c :: t => if c == ' ' then cur.reverse :: splitSpAux [] t
                   else splitSpAux (c :: cur) t

/-- JS `s.split(" ")`: split on each single space, keeping empty pieces. -/
def splitSp (l : List Char) : List (List Char) := splitSpAux [] l

/-- Embeds `s.split(" ").filter(Boolean)`: the whitespace-delimited tokens. -/
def tokensOf (s : List Char) : List (List Char) :=
  (splitSp s).filter (fun t => !t.isEmpty)

/-- Embeds `hits` in `scoreMatch`: the number of query tokens present in the
candidate's token set (query duplicates counted each time, as in the JS
`for` loop over `sTokens`). -/
def hitsOf (search candidate : List Char) : Nat :=
  ((tokensOf search).filter (fun t => (tokensOf candidate).contains t)).length

/-- The `important` vocabulary array from `src/server.js` (lines 85–175),
in source order, duplicates included ("letter", "unit", "activity",
"reader", "guide", "flip", "cards", "visuals", "book" each occur twice). -/
def important : List (List Char) :=
  (["welcome", "letter", "family", "guide", "program", "implementation",
    "protocol", "internalization", "lesson", "unit", "teacher", "coach",
    "student", "reading", "independent", "observation", "navigation",
    "component", "pacing", "scope", "sequence",
    "gk", "k", "k-2", "k-3", "k-5", "grade",
    "foundational", "skills", "fs", "activity", "big", "reader", "digital",
    "visuals", "components", "support",
    "consonant", "vowel", "code", "flip", "book", "chart", "individual",
    "spelling", "cards", "letter", "image",
    "rla",
    "unit", "1", "2", "3", "4", "5", "6", "7", "8", "9", "10",
    "fs1", "fs2", "fs3", "fs4", "fs5", "fs6", "fs7",
    "activity", "reader", "guide", "flip", "cards", "visuals",
    "book"]).map String.toList

/-- The bonus loop of `scoreMatch`: 15 for each entry of the `important`
array (with multiplicity) occurring as a substring of both strings. -/
def bonusOf (search candidate : List Char) : Nat :=
  15 * ((important.filter
    (fun w => jsIncludes search w && jsIncludes candidate w)).length)

/-- Embeds `scoreMatch` from `src/server.js` (lines 63–182): 1000 on exact
equality, 700 when the candidate contains the search, 650 when the search
contains the candidate, otherwise the rounded token-overlap ratio plus the
vocabulary bonus.  `Math.round(ratio * 500)` with `ratio = hits / max(1,n)`
is `(1000 * hits + n) / (2 * n)` in natural division. -/
def scoreMatch (search candidate : List Char) : Int :=
  if candidate = search then 1000
  else if jsIncludes candidate search then 700
  else if jsIncludes search candidate then 650
  else
    (((1000 * hitsOf search candidate + max 1 (tokensOf search).length) /
        (2 * max 1 (tokensOf search).length) +
      bonusOf search candidate : Nat) : Int)

/-- One row of `PDF_TABLE` as built by `loadPdfTableOnce`. -/
structure Row where
  keyword : List Char
  pdf_name : List Char
  pdf_link : List Char
deriving DecidableEq

/-- Threshold `MIN_SCORE` from `findPdfByName`. -/
def MIN_SCORE : Int := 140

/-- Threshold `MIN_GAP` from `findPdfByName`. -/
def MIN_GAP : Int := 40

/-- The body of the `for (const row of PDF_TABLE)` loop in `findPdfByName`:
state is `(best, bestScore, secondBestScore)`. -/
def scanStep (search : List Char) (acc : Option Row × Int × Int) (row : Row) :
    Option Row × Int × Int :=
  let s := scoreMatch search (normalizeName row.pdf_name)
  if s > acc.2.1 then (some row, s, acc.2.1)
  else if s > acc.2.2 then (acc.1, acc.2.1, s)
  else acc

/-- The full scan of the table, from the initial state
`best = null, bestScore = -1, secondBestScore = -1`. -/
def scanTable (search : List Char) (table : List Row) :
    Option Row × Int × Int :=
  table.foldl (scanStep search) (none, -1, -1)

/-- Embeds `findPdfByName` from `src/server.js` (lines 192–234), with the global
`PDF_TABLE` passed explicitly.  Rejects empty or short normalized queries,
scans the table, then rejects weak (`bestScore < MIN_SCORE`) and ambiguous
(`secondBestScore ≠ -1` and gap `< MIN_GAP`) outcomes. -/
def findPdfByName (pdfName : List Char) (table : List Row) : Option Row :=
  let search := normalizeName pdfName
  if search.isEmpty then none
  else if search.length < 4 then none
  else
    let r := scanTable search table
    if r.2.1 < MIN_SCORE then none
    else if r.2.2 ≠ -1 ∧ r.2.1 - r.2.2 < MIN_GAP then none
    else r.1

/-- No two consecutive spaces occur in the list. -/
def noTwoSpaces (l : List Char) : Prop :=
  List.Chain' (fun a b => ¬(a = ' ' ∧ b = ' ')) l

/-- JS `Math.round` on an exact rational: `⌊x + 1/2⌋` (half away from
zero for the non-negative arguments arising here). -/
def specRound (x : ℚ) : ℤ := ⌊x + 1/2⌋

/-- The spec's reading of the bonus: 15 for each DISTINCT curated
vocabulary term occurring as a substring of both strings (each term
counted at most once). -/
def specBonusDistinct (q c : List Char) : ℤ :=
  15 * ((important.dedup.filter
    (fun w => jsIncludes q w && jsIncludes c w)).length : ℤ)

/-- The bonus as the code computes it: 15 for each ENTRY of the
`important` array (with multiplicity) occurring as a substring of both
strings. -/
def specBonusMulti (q c : List Char) : ℤ :=
  15 * ((important.filter
    (fun w => jsIncludes q w && jsIncludes c w)).length : ℤ)

/-- The spec's token-overlap base score:
`round(hits / max(1, queryTokenCount) * 500)` over exact rationals. -/
def specTokenScore (q c : List Char) : ℤ :=
  specRound ((hitsOf q c : ℚ) / ((max 1 (tokensOf q).length : ℕ) : ℚ) * 500)

/-- The token-overlap-tier score as the spec sentence for C6 states it:
rounded ratio base plus the distinct-term bonus. -/
def specScoreC6 (q c : List Char) : ℤ :=
  specTokenScore q c + specBonusDistinct q c

/-- Test row "Unit 1 Flip Book" (from the spec's ambiguity example). -/
def rowUnitBook : Row :=
  ⟨("u1fb".toList), ("Unit 1 Flip Book".toList), ("link-book".toList)⟩

/-- Test row "Unit 1 Flip Chart" (from the spec's ambiguity example). -/
def rowUnitChart : Row :=
  ⟨("u1fc".toList), ("Unit 1 Flip Chart".toList), ("link-chart".toList)⟩

/-- Test row "X Flip Chart" (tie table for the tie-break claims). -/
def rowFlipX : Row :=
  ⟨("xfc".toList), ("X Flip Chart".toList), ("link-x".toList)⟩

/-- Test row "Y Flip Chart" (tie table for the tie-break claims). -/
def rowFlipY : Row :=
  ⟨("yfc".toList), ("Y Flip Chart".toList), ("link-y".toList)⟩

/-- Test row "Grade 1 Welcome Letter". -/
def rowWelcome : Row :=
  ⟨("g1wl".toList), ("Grade 1 Welcome Letter".toList), ("link-w".toList)⟩

/-- Test row with a name unrelated to any query used here. -/
def rowZ : Row :=
  ⟨("z".toList), ("zzzz".toList), ("link-z".toList)⟩

/-! ## Character-level facts -/

lemma isLowDigit_not_ws {c : Char} (h : isLowDigit c = true) : jsWs c = false := by
  cases hw : jsWs c
  · rfl
  · exfalso
    simp only [isLowDigit, Bool.or_eq_true, Bool.and_eq_true,
      decide_eq_true_eq] at h
    simp only [jsWs, Bool.or_eq_true, Bool.and_eq_true, decide_eq_true_eq,
      beq_iff_eq] at hw
    omega

lemma isLowDigit_of_good {c : Char} (h : goodChar c = true) (hne : c ≠ ' ') :
    isLowDigit c = true := by
  simp only [goodChar, Bool.or_eq_true, beq_iff_eq] at h
  rcases h with h | h
  · exact h
  · exact absurd h hne

lemma keepChar_of_good {c : Char} (h : goodChar c = true) :
    keepChar c = true := by
  simp only [goodChar, Bool.or_eq_true, beq_iff_eq] at h
  rcases h with h | rfl
  · simp [keepChar, h]
  · decide

lemma toLower_fix {c : Char} (h : ¬(c.toNat ≥ 65 ∧ c.toNat ≤ 90)) :
    c.toLower = c := by
  simp only [Char.toLower]
  rw [if_neg h]

lemma toLower_good {c : Char} (h : goodChar c = true) : c.toLower = c := by
  apply toLower_fix
  simp only [goodChar, Bool.or_eq_true, beq_iff_eq, isLowDigit,
    Bool.and_eq_true, decide_eq_true_eq] at h
  rcases h with (h | h) | rfl
  · omega
  · omega
  · decide

lemma toLower_ws {c : Char} (h : jsWs c = true) : c.toLower = c := by
  apply toLower_fix
  simp only [jsWs, Bool.or_eq_true, Bool.and_eq_true, decide_eq_true_eq,
    beq_iff_eq] at h
  omega

lemma not_space_of_not_ws {c : Char} (h : jsWs c = false) : c ≠ ' ' := by
  intro rfl_h
  rw [rfl_h] at h
  exact absurd h (by decide)

/-! ## Collapse and trim facts -/

lemma collapseWs_good : ∀ (l : List Char) (b : Bool),
    (∀ c ∈ l, keepChar c = true) → ∀ c ∈ collapseWs b l, goodChar c = true
  | [], b, _ => by cases b <;> simp [collapseWs]
  | a :: t, b, h => by
    have ha := h a (List.mem_cons_self a t)
    have ht : ∀ c ∈ t, keepChar c = true :=
      fun c hc => h c (List.mem_cons_of_mem _ hc)
    cases hja : jsWs a with
    | true =>
      cases b with
      | false =>
        simp only [collapseWs, hja, if_true]
        intro c hc
        rcases List.mem_cons.mp hc with rfl | hc
        · decide
        · exact collapseWs_good t true ht c hc
      | true =>
        simp only [collapseWs, hja, if_true]
        exact collapseWs_good t true ht
    | false =>
      have hld : isLowDigit a = true := by
        simp only [keepChar, Bool.or_eq_true] at ha
        rcases ha with h' | h'
        · exact h'
        · rw [hja] at h'; exact absurd h' (by simp)
      cases b with
      | false =>
        simp only [collapseWs, hja, Bool.false_eq_true, if_false]
        intro c hc
        rcases List.mem_cons.mp hc with rfl | hc
        · simp [goodChar, hld]
        · exact collapseWs_good t false ht c hc
      | true =>
        simp only [collapseWs, hja, Bool.false_eq_true, if_false]
        intro c hc
        rcases List.mem_cons.mp hc with rfl | hc
        · simp [goodChar, hld]
        · exact collapseWs_good t false ht c hc

lemma collapseWs_props : ∀ (l : List Char),
    (noTwoSpaces (collapseWs false l) ∧ noTwoSpaces (collapseWs true l)) ∧
    (collapseWs true l).head? ≠ some ' '
  | [] => by
    refine ⟨⟨?_, ?_⟩, ?_⟩ <;> simp [collapseWs, noTwoSpaces]
  | a :: t => by
    obtain ⟨⟨ihf, iht⟩, ihh⟩ := collapseWs_props t
    cases hja : jsWs a with
    | true =>
      have hfalse : collapseWs false (a :: t) = ' ' :: collapseWs true t := by
        simp [collapseWs, hja]
      have htrue : collapseWs true (a :: t) = collapseWs true t := by
        simp [collapseWs, hja]
      refine ⟨⟨?_, ?_⟩, ?_⟩
      · rw [hfalse]
        rw [noTwoSpaces, List.chain'_cons']
        refine ⟨?_, iht⟩
        intro y hy
        intro ⟨_, hy'⟩
        exact ihh (by rw [← hy']; exact hy)
      · rw [htrue]; exact iht
      · rw [htrue]; exact ihh
    | false =>
      have hne : a ≠ ' ' := not_space_of_not_ws hja
      have hcons : ∀ b', collapseWs b' (a :: t) = a :: collapseWs false t := by
        intro b'
        cases b' <;> simp [collapseWs, hja]
      have hch : noTwoSpaces (a :: collapseWs false t) := by
        rw [noTwoSpaces, List.chain'_cons']
        exact ⟨fun y _ => fun ⟨h1, _⟩ => hne h1, ihf⟩
      refine ⟨⟨?_, ?_⟩, ?_⟩
      · rw [hcons false]; exact hch
      · rw [hcons true]; exact hch
      · rw [hcons true]
        intro hcontra
        rw [List.head?_cons] at hcontra
        exact hne (Option.some.inj hcontra)

lemma collapseWs_fix : ∀ (l : List Char),
    (∀ c ∈ l, goodChar c = true) → noTwoSpaces l →
    (collapseWs false l = l ∧
      (l.head? ≠ some ' ' → collapseWs true l = l))
  | [], _, _ => ⟨rfl, fun _ => rfl⟩
  | a :: t, hg, hch => by
    have hgt : ∀ c ∈ t, goodChar c = true :=
      fun c hc => hg c (List.mem_cons_of_mem _ hc)
    have hcht : noTwoSpaces t := List.Chain'.tail hch
    obtain ⟨ihf, iht⟩ := collapseWs_fix t hgt hcht
    by_cases hsp : a = ' '
    · subst hsp
      have hja : jsWs ' ' = true := by decide
      have hheadt : t.head? ≠ some ' ' := by
        intro hh
        cases t with
        | nil => simp at hh
        | cons y t' =>
          simp only [List.head?_cons, Option.some.injEq] at hh
          have := (List.chain'_cons'.mp hch).1 y (by simp)
          exact this ⟨rfl, hh⟩
      constructor
      · simp only [collapseWs, hja, if_true]
        rw [iht hheadt]
      · intro hcontra
        exact absurd rfl hcontra
    · have hja : jsWs a = false :=
        isLowDigit_not_ws (isLowDigit_of_good (hg a (List.mem_cons_self a t)) hsp)
      constructor
      · simp only [collapseWs, hja, Bool.false_eq_true, if_false]
        rw [ihf]
      · intro _
        simp only [collapseWs, hja, Bool.false_eq_true, if_false]
        rw [ihf]

lemma head?_dropWhile_neg (p : Char → Bool) :
    ∀ (l : List Char) (a : Char), (l.dropWhile p).head? = some a → p a = false
  | [], a => by simp [List.dropWhile]
  | x :: t, a => by
    rw [List.dropWhile_cons]
    cases hx : p x with
    | true =>
      simp only [if_true]
      exact head?_dropWhile_neg p t a
    | false =>
      simp only [Bool.false_eq_true, if_false, List.head?_cons,
        Option.some.injEq]
      intro h
      rw [← h]
      exact hx

lemma getLast?_dropWhile (p : Char → Bool) :
    ∀ l : List Char, l.dropWhile p ≠ [] →
      (l.dropWhile p).getLast? = l.getLast?
  | [] => by simp
  | x :: t => by
    rw [List.dropWhile_cons]
    cases hx : p x with
    | true =>
      simp only [if_true]
      intro h
      have ht : t ≠ [] := by
        intro he
        rw [he] at h
        exact h rfl
      rw [getLast?_dropWhile p t h]
      cases t with
      | nil => exact absurd rfl ht
      | cons b t' => rw [List.getLast?_cons_cons]
    | false =>
      intro _
      simp

lemma dropWhile_fix {l : List Char}
    (hg : ∀ c ∈ l, goodChar c = true) (hh : l.head? ≠ some ' ') :
    l.dropWhile jsWs = l := by
  cases l with
  | nil => rfl
  | cons a t =>
    have hne : a ≠ ' ' := by
      intro rfl_h
      exact hh (by rw [rfl_h]; rfl)
    have hja : jsWs a = false :=
      isLowDigit_not_ws (isLowDigit_of_good (hg a (List.mem_cons_self a t)) hne)
    rw [List.dropWhile_cons, if_neg (by simp [hja])]

lemma trimWs_fix {l : List Char}
    (hg : ∀ c ∈ l, goodChar c = true) (hh : l.head? ≠ some ' ')
    (hl : l.getLast? ≠ some ' ') : trimWs l = l := by
  unfold trimWs
  rw [dropWhile_fix hg hh]
  have hgr : ∀ c ∈ l.reverse, goodChar c = true :=
    fun c hc => hg c (List.mem_reverse.mp hc)
  have hhr : l.reverse.head? ≠ some ' ' := by
    rw [List.head?_reverse]
    exact hl
  rw [dropWhile_fix hgr hhr, List.reverse_reverse]

lemma chain'_dropWhile {R : Char → Char → Prop} (p : Char → Bool) :
    ∀ l : List Char, List.Chain' R l → List.Chain' R (l.dropWhile p)
  | [] => fun h => h
  | x :: t => by
    rw [List.dropWhile_cons]
    cases hx : p x with
    | true =>
      simp only [if_true]
      intro h
      exact chain'_dropWhile p t (List.Chain'.tail h)
    | false =>
      simp only [Bool.false_eq_true, if_false]
      exact fun h => h

lemma noTwoSpaces_reverse {l : List Char} (h : noTwoSpaces l) :
    noTwoSpaces l.reverse := by
  rw [noTwoSpaces, List.chain'_reverse]
  exact List.Chain'.imp (fun a b hab => fun ⟨h1, h2⟩ => hab ⟨h2, h1⟩) h

lemma normalizeName_props (s : List Char) :
    (∀ c ∈ normalizeName s, goodChar c = true) ∧
    noTwoSpaces (normalizeName s) ∧
    (normalizeName s).head? ≠ some ' ' ∧
    (normalizeName s).getLast? ≠ some ' ' := by
  unfold normalizeName trimWs
  set F := (s.map Char.toLower).filter keepChar with hF
  have hFk : ∀ c ∈ F, keepChar c = true := by
    intro c hc
    exact (List.mem_filter.mp hc).2
  set Cl := collapseWs false F with hCl
  have hClg : ∀ c ∈ Cl, goodChar c = true := collapseWs_good F false hFk
  have hClch : noTwoSpaces Cl := (collapseWs_props F).1.1
  set A := Cl.dropWhile jsWs with hA
  have hAg : ∀ c ∈ A, goodChar c = true :=
    fun c hc => hClg c ((List.dropWhile_sublist jsWs).subset hc)
  have hAch : noTwoSpaces A := chain'_dropWhile jsWs Cl hClch
  have hAh : ∀ c, A.head? = some c → jsWs c = false :=
    fun c hc => head?_dropWhile_neg jsWs Cl c hc
  set B := A.reverse.dropWhile jsWs with hB
  have hBg : ∀ c ∈ B, goodChar c = true :=
    fun c hc =>
      hAg c (List.mem_reverse.mp ((List.dropWhile_sublist jsWs).subset hc))
  have hBch : noTwoSpaces B :=
    chain'_dropWhile jsWs A.reverse (noTwoSpaces_reverse hAch)
  have hBh : ∀ c, B.head? = some c → jsWs c = false :=
    fun c hc => head?_dropWhile_neg jsWs A.reverse c hc
  refine ⟨?_, ?_, ?_, ?_⟩
  · intro c hc
    exact hBg c (List.mem_reverse.mp hc)
  · exact noTwoSpaces_reverse hBch
  · -- head of B.reverse is the last of B, which comes from the head of A
    intro hcontra
    rw [List.head?_reverse] at hcontra
    have hBne : B ≠ [] := by
      intro he
      rw [he] at hcontra
      exact Option.noConfusion hcontra
    rw [hB, getLast?_dropWhile jsWs A.reverse (hB ▸ hBne),
      List.getLast?_reverse] at hcontra
    have := hAh ' ' hcontra
    exact absurd this (by decide)
  · intro hcontra
    rw [List.getLast?_reverse] at hcontra
    have := hBh ' ' hcontra
    exact absurd this (by decide)

lemma normalizeName_fix {n : List Char}
    (hg : ∀ c ∈ n, goodChar c = true) (hch : noTwoSpaces n)
    (hh : n.head? ≠ some ' ') (hl : n.getLast? ≠ some ' ') :
    normalizeName n = n := by
  unfold normalizeName
  rw [List.map_congr_left (fun c hc => toLower_good (hg c hc)), List.map_id']
  rw [List.filter_eq_self.mpr (fun c hc => keepChar_of_good (hg c hc))]
  rw [(collapseWs_fix n hg hch).1]
  exact trimWs_fix hg hh hl

lemma collapseWs_true_allWs :
    ∀ l : List Char, (∀ c ∈ l, jsWs c = true) → collapseWs true l = []
  | [] => fun _ => rfl
  | a :: t => by
    intro h
    have ha := h a (List.mem_cons_self a t)
    simp only [collapseWs, ha, if_true]
    exact collapseWs_true_allWs t (fun c hc => h c (List.mem_cons_of_mem _ hc))

lemma normalizeName_allWs {s : List Char} (h : ∀ c ∈ s, jsWs c = true) :
    normalizeName s = [] := by
  unfold normalizeName
  rw [List.map_congr_left (fun c hc => toLower_ws (h c hc)), List.map_id']
  rw [List.filter_eq_self.mpr
    (fun c hc => by simp [keepChar, h c hc])]
  cases s with
  | nil => rfl
  | cons a t =>
    have ha := h a (List.mem_cons_self a t)
    simp only [collapseWs, ha, if_true]
    rw [collapseWs_true_allWs t (fun c hc => h c (List.mem_cons_of_mem _ hc))]
    decide

/-- C7: `normalize`/`normalizeName` is idempotent: normalizing an already
normalized string changes nothing. -/
theorem normalizeName_idempotent (s : List Char) :
    normalizeName (normalizeName s) = normalizeName s := by
  obtain ⟨hg, hch, hh, hl⟩ := normalizeName_props s
  exact normalizeName_fix hg hch hh hl

/-- C8: `normalizeName` is a total function whose output consists only of
lowercase ASCII letters, digits and single spaces: every character is good
(`goodChar`), there is no leading space, no trailing space, no two
consecutive spaces, and whitespace-only (in particular empty) input
normalizes to the empty string. -/
theorem normalizeName_charset (s : List Char) :
    (normalizeName s).all goodChar = true ∧
    (normalizeName s).head? ≠ some ' ' ∧
    (normalizeName s).getLast? ≠ some ' ' ∧
    noTwoSpaces (normalizeName s) ∧
    (s.all jsWs = true → normalizeName s = []) := by
  obtain ⟨hg, hch, hh, hl⟩ := normalizeName_props s
  refine ⟨?_, hh, hl, hch, ?_⟩
  · rw [List.all_eq_true]
    exact hg
  · intro hws
    exact normalizeName_allWs (fun c hc => List.all_eq_true.mp hws c hc)

/-- Witness for C8 at concrete inputs: a tab-and-spaces string is
whitespace-only and normalizes to the empty string, and a sample
normalization satisfies the charset conjunct. -/
theorem normalizeName_charset_witness :
    ("\t  ".toList.all jsWs = true) ∧
    normalizeName ("\t  ".toList) = [] ∧
    (normalizeName ("  Unit 1  Flip-Book! ".toList)).all goodChar = true :=
  ⟨by decide,
   (normalizeName_charset ("\t  ".toList)).2.2.2.2 (by decide),
   (normalizeName_charset ("  Unit 1  Flip-Book! ".toList)).1⟩

/-! ## Scoring facts -/

lemma scoreMatch_nonneg (s c : List Char) : 0 ≤ scoreMatch s c := by
  unfold scoreMatch
  split
  · norm_num
  · split
    · norm_num
    · split
      · norm_num
      · exact Int.natCast_nonneg _

/-- C1 (amended): in the substring tiers the score is exactly the bare
constant — 700 when the candidate strictly contains the query, 650 when
the query strictly contains the candidate; no vocabulary bonus is added
in these tiers (the bonus loop only runs in the token-overlap fallback). -/
theorem scoreMatch_substring_tiers (q c : List Char) (hne : c ≠ q) :
    (jsIncludes c q = true → scoreMatch q c = 700) ∧
    (jsIncludes c q = false → jsIncludes q c = true → scoreMatch q c = 650) := by
  constructor
  · intro h2
    unfold scoreMatch
    rw [if_neg hne, if_pos h2]
  · intro h2 h3
    unfold scoreMatch
    rw [if_neg hne, if_neg (by simp [h2]), if_pos h3]

/-- Witness for the amended C1 at concrete normalized inputs:
`"flip"` vs `"flip book"` hits tier 2 (700) and the reversed pair hits
tier 3 (650), in both cases with no bonus despite `"flip"` being a
vocabulary term contained in both strings. -/
theorem scoreMatch_substring_tiers_witness :
    scoreMatch ("flip".toList) ("flip book".toList) = 700 ∧
    scoreMatch ("flip book".toList) ("flip".toList) = 650 :=
  ⟨(scoreMatch_substring_tiers ("flip".toList) ("flip book".toList)
      (by decide)).1 (by decide),
   (scoreMatch_substring_tiers ("flip book".toList) ("flip".toList)
      (by decide)).2 (by decide) (by decide)⟩

/-- Counterexample to C1 as stated: for the normalized pair
(`"flip"`, `"flip book"`) the candidate contains the query and the
vocabulary term `"flip"` is a substring of both, so the claimed score
`700 + bonus` would exceed 700, but `scoreMatch` returns exactly 700
(the bonus loop is unreachable in the substring tiers). -/
theorem scoreMatch_substring_bonus_cex :
    normalizeName ("flip".toList) = "flip".toList ∧
    normalizeName ("flip book".toList) = "flip book".toList ∧
    "flip book".toList ≠ "flip".toList ∧
    jsIncludes ("flip book".toList) ("flip".toList) = true ∧
    0 < specBonusDistinct ("flip".toList) ("flip book".toList) ∧
    0 < specBonusMulti ("flip".toList) ("flip book".toList) ∧
    scoreMatch ("flip".toList) ("flip book".toList) ≠
      700 + specBonusDistinct ("flip".toList) ("flip book".toList) ∧
    scoreMatch ("flip".toList) ("flip book".toList) ≠
      700 + specBonusMulti ("flip".toList) ("flip book".toList) := by
  decide

lemma natDiv_round (h n : ℕ) (hn : 0 < n) :
    (((1000 * h + n) / (2 * n) : ℕ) : ℤ) =
      ⌊((h : ℚ) / ((n : ℕ) : ℚ) * 500 + 1/2)⌋ := by
  have hnq : ((n : ℕ) : ℚ) ≠ 0 := Nat.cast_ne_zero.mpr hn.ne'
  have key : (h : ℚ) / ((n : ℕ) : ℚ) * 500 + 1/2 =
      (((1000 * h + n : ℕ) : ℤ) : ℚ) / ((2 * n : ℕ) : ℚ) := by
    push_cast
    field_simp
    ring
  rw [key, Rat.floor_intCast_div_natCast]
  push_cast [Int.natCast_div]
  norm_num

/-- C6 (amended): in the token-overlap tier the score is the rounded
ratio base plus 15 for each ENTRY of the `important` array — counted with
multiplicity, so the duplicated vocabulary words ("letter", "unit",
"activity", "reader", "guide", "flip", "cards", "visuals", "book")
each contribute 30, not 15, when they occur in both strings. -/
theorem scoreMatch_token_tier (q c : List Char) (h1 : c ≠ q)
    (h2 : jsIncludes c q = false) (h3 : jsIncludes q c = false) :
    scoreMatch q c = specTokenScore q c + specBonusMulti q c := by
  unfold scoreMatch
  rw [if_neg h1, if_neg (by simp [h2]), if_neg (by simp [h3])]
  unfold specTokenScore specRound specBonusMulti
  rw [← natDiv_round (hitsOf q c) (max 1 (tokensOf q).length) (by omega)]
  unfold bonusOf
  push_cast
  ring

/-- Witness for the amended C6 at the concrete normalized pair
(`"flip a"`, `"flip b"`), where the duplicated entry `"flip"` makes the
bonus 30. -/
theorem scoreMatch_token_tier_witness :
    scoreMatch ("flip a".toList) ("flip b".toList) =
      specTokenScore ("flip a".toList) ("flip b".toList) +
        specBonusMulti ("flip a".toList) ("flip b".toList) :=
  scoreMatch_token_tier ("flip a".toList) ("flip b".toList)
    (by decide) (by decide) (by decide)

/-- Counterexample to C6 as stated: for the normalized token-overlap pair
(`"flip a"`, `"flip b"`) the code scores 280 (base 250 plus 15 for EACH
of the two `"flip"` entries of the array), while the claim's formula with
each vocabulary word counted at most once yields 265. -/
theorem scoreMatch_distinct_bonus_cex :
    "flip b".toList ≠ "flip a".toList ∧
    jsIncludes ("flip b".toList) ("flip a".toList) = false ∧
    jsIncludes ("flip a".toList) ("flip b".toList) = false ∧
    scoreMatch ("flip a".toList) ("flip b".toList) = 280 ∧
    specScoreC6 ("flip a".toList) ("flip b".toList) = 265 ∧
    scoreMatch ("flip a".toList) ("flip b".toList) ≠
      specScoreC6 ("flip a".toList) ("flip b".toList) := by
  have hts : specScoreC6 ("flip a".toList) ("flip b".toList) = 265 := by
    unfold specScoreC6 specTokenScore specRound
    rw [← natDiv_round (hitsOf ("flip a".toList) ("flip b".toList))
      (max 1 (tokensOf ("flip a".toList)).length) (by omega)]
    unfold specBonusDistinct
    decide
  refine ⟨by decide, by decide, by decide, by decide, hts, ?_⟩
  rw [hts]
  decide

/-! ## Scan facts -/

lemma scanStep_eq (s : List Char) (acc : Option Row × Int × Int) (r : Row) :
    scanStep s acc r =
      if scoreMatch s (normalizeName r.pdf_name) > acc.2.1 then
        (some r, scoreMatch s (normalizeName r.pdf_name), acc.2.1)
      else if scoreMatch s (normalizeName r.pdf_name) > acc.2.2 then
        (acc.1, acc.2.1, scoreMatch s (normalizeName r.pdf_name))
      else acc := rfl

lemma scanStep_best_mono (s : List Char) (acc : Option Row × Int × Int)
    (r : Row) : acc.2.1 ≤ (scanStep s acc r).2.1 := by
  rw [scanStep_eq]
  split_ifs with h1 h2 <;> (try dsimp only) <;> omega

lemma scanStep_best_ge (s : List Char) (acc : Option Row × Int × Int)
    (r : Row) :
    scoreMatch s (normalizeName r.pdf_name) ≤ (scanStep s acc r).2.1 := by
  rw [scanStep_eq]
  split_ifs with h1 h2 <;> (try dsimp only) <;> omega

lemma scanStep_best_le {M : Int} (s : List Char)
    (acc : Option Row × Int × Int) (r : Row)
    (hr : scoreMatch s (normalizeName r.pdf_name) ≤ M) (ha : acc.2.1 ≤ M) :
    (scanStep s acc r).2.1 ≤ M := by
  rw [scanStep_eq]
  split_ifs with h1 h2 <;> (try dsimp only) <;> omega

lemma scanStep_snd_le_fst (s : List Char) (acc : Option Row × Int × Int)
    (r : Row) (h : acc.2.2 ≤ acc.2.1) :
    (scanStep s acc r).2.2 ≤ (scanStep s acc r).2.1 := by
  rw [scanStep_eq]
  split_ifs with h1 h2 <;> (try dsimp only) <;> omega

lemma scanStep_snd_mono (s : List Char) (acc : Option Row × Int × Int)
    (r : Row) (h : acc.2.2 ≤ acc.2.1) :
    acc.2.2 ≤ (scanStep s acc r).2.2 := by
  rw [scanStep_eq]
  split_ifs with h1 h2 <;> (try dsimp only) <;> omega

lemma scanStep_fst_cases (s : List Char) (acc : Option Row × Int × Int)
    (r : Row) :
    (scanStep s acc r).1 = some r ∨ (scanStep s acc r).1 = acc.1 := by
  rw [scanStep_eq]
  split_ifs
  · exact Or.inl rfl
  · exact Or.inr rfl
  · exact Or.inr rfl

lemma scanStep_tie {M : Int} (s : List Char) (acc : Option Row × Int × Int)
    (r : Row) (hsc : scoreMatch s (normalizeName r.pdf_name) = M)
    (h1 : acc.2.1 = M) (h21 : acc.2.2 ≤ acc.2.1) :
    (scanStep s acc r).2.1 = M ∧ M ≤ (scanStep s acc r).2.2 ∧
      (scanStep s acc r).2.2 ≤ (scanStep s acc r).2.1 := by
  rw [scanStep_eq]
  split_ifs with hA hB <;> (try dsimp only) <;> refine ⟨?_, ?_, ?_⟩ <;> omega

lemma scan_best_mono (s : List Char) :
    ∀ (rows : List Row) (acc : Option Row × Int × Int),
      acc.2.1 ≤ (rows.foldl (scanStep s) acc).2.1
  | [], _ => le_refl _
  | r :: t, acc =>
    le_trans (scanStep_best_mono s acc r) (scan_best_mono s t (scanStep s acc r))

lemma scan_best_ge_mem (s : List Char) :
    ∀ (rows : List Row) (acc : Option Row × Int × Int) (r : Row), r ∈ rows →
      scoreMatch s (normalizeName r.pdf_name) ≤
        (rows.foldl (scanStep s) acc).2.1
  | [], _, _, h => absurd h (List.not_mem_nil _)
  | a :: t, acc, r, h => by
    rcases List.mem_cons.mp h with rfl | h'
    · exact le_trans (scanStep_best_ge s acc r)
        (scan_best_mono s t (scanStep s acc r))
    · exact scan_best_ge_mem s t (scanStep s acc a) r h'

lemma scan_best_le {M : Int} (s : List Char) :
    ∀ (rows : List Row) (acc : Option Row × Int × Int),
      (∀ r ∈ rows, scoreMatch s (normalizeName r.pdf_name) ≤ M) →
      acc.2.1 ≤ M → (rows.foldl (scanStep s) acc).2.1 ≤ M
  | [], _, _, ha => ha
  | a :: t, acc, hall, ha =>
    scan_best_le s t (scanStep s acc a)
      (fun r hr => hall r (List.mem_cons_of_mem _ hr))
      (scanStep_best_le s acc a (hall a (List.mem_cons_self a t)) ha)

lemma scan_snd_le_fst (s : List Char) :
    ∀ (rows : List Row) (acc : Option Row × Int × Int), acc.2.2 ≤ acc.2.1 →
      (rows.foldl (scanStep s) acc).2.2 ≤ (rows.foldl (scanStep s) acc).2.1
  | [], _, h => h
  | a :: t, acc, h => scan_snd_le_fst s t (scanStep s acc a)
      (scanStep_snd_le_fst s acc a h)

lemma scan_snd_mono (s : List Char) :
    ∀ (rows : List Row) (acc : Option Row × Int × Int), acc.2.2 ≤ acc.2.1 →
      acc.2.2 ≤ (rows.foldl (scanStep s) acc).2.2
  | [], _, _ => le_refl _
  | a :: t, acc, h =>
    le_trans (scanStep_snd_mono s acc a h)
      (scan_snd_mono s t (scanStep s acc a) (scanStep_snd_le_fst s acc a h))

lemma scan_fst_mem (s : List Char) :
    ∀ (rows : List Row) (acc : Option Row × Int × Int) (r : Row),
      (rows.foldl (scanStep s) acc).1 = some r → acc.1 = some r ∨ r ∈ rows
  | [], _, _, h => Or.inl h
  | a :: t, acc, r, h => by
    rcases scan_fst_mem s t (scanStep s acc a) r h with h' | h'
    · rcases scanStep_fst_cases s acc a with hc | hc
      · rw [hc] at h'
        exact Or.inr (by rw [← Option.some.inj h']; exact List.mem_cons_self a t)
      · rw [hc] at h'
        exact Or.inl h'
    · exact Or.inr (List.mem_cons_of_mem _ h')

lemma scanStep_init (s : List Char) (r : Row) :
    scanStep s (none, -1, -1) r =
      (some r, scoreMatch s (normalizeName r.pdf_name), -1) := by
  have h := scoreMatch_nonneg s (normalizeName r.pdf_name)
  rw [scanStep_eq]
  rw [if_pos (show scoreMatch s (normalizeName r.pdf_name) > (-1 : Int) by omega)]

lemma findPdfByName_eq (q : List Char) (table : List Row)
    (h4 : 4 ≤ (normalizeName q).length) :
    findPdfByName q table =
      (if (scanTable (normalizeName q) table).2.1 < MIN_SCORE then none
       else if (scanTable (normalizeName q) table).2.2 ≠ -1 ∧
           (scanTable (normalizeName q) table).2.1 -
             (scanTable (normalizeName q) table).2.2 < MIN_GAP then none
       else (scanTable (normalizeName q) table).1) := by
  have hnil : normalizeName q ≠ [] := by
    intro he
    rw [he] at h4
    simp at h4
  unfold findPdfByName
  rw [if_neg (by simp [hnil]), if_neg (by omega)]

/-! ## Resolver theorems -/

/-- C5: a query whose normalized form is empty or shorter than 4
characters is rejected regardless of the table's contents. -/
theorem findPdfByName_short_query (q : List Char) (table : List Row)
    (h : (normalizeName q).length < 4) : findPdfByName q table = none := by
  unfold findPdfByName
  cases hE : (normalizeName q).isEmpty
  · rw [if_neg (by simp [hE]), if_pos h]
  · rw [if_pos hE]

/-- Witness for C5: the literal query `"pdf"` normalizes to length 3 and
is rejected against a non-trivial table. -/
theorem findPdfByName_short_query_witness :
    (normalizeName ("pdf".toList)).length < 4 ∧
    findPdfByName ("pdf".toList) [rowUnitBook, rowWelcome] = none :=
  ⟨by decide,
   findPdfByName_short_query ("pdf".toList) [rowUnitBook, rowWelcome]
     (by decide)⟩

/-- C4: if every record of the table scores below 140 (so the maximal
score is below `MIN_SCORE`), the resolver rejects. -/
theorem findPdfByName_weak_best (q : List Char) (table : List Row)
    (h4 : 4 ≤ (normalizeName q).length)
    (hall : ∀ r ∈ table,
      scoreMatch (normalizeName q) (normalizeName r.pdf_name) < 140) :
    findPdfByName q table = none := by
  rw [findPdfByName_eq q table h4]
  have hle : (scanTable (normalizeName q) table).2.1 ≤ 139 := by
    unfold scanTable
    exact scan_best_le (normalizeName q) table (none, -1, -1)
      (fun r hr => by have := hall r hr; omega)
      (show (-1 : Int) ≤ 139 by omega)
  rw [if_pos (show (scanTable (normalizeName q) table).2.1 < MIN_SCORE by
    have hms : MIN_SCORE = (140 : Int) := rfl
    omega)]

/-- Witness for C4: a query scoring 0 against a one-row table is
rejected. -/
theorem findPdfByName_weak_best_witness :
    4 ≤ (normalizeName ("grade 9999".toList)).length ∧
    findPdfByName ("grade 9999".toList) [rowZ] = none :=
  ⟨by decide,
   findPdfByName_weak_best ("grade 9999".toList) [rowZ]
     (by decide) (by decide)⟩

/-- C3: with at least two records, once the tracked best score reaches
`MIN_SCORE` (140) but leads the tracked second-best score by less than
`MIN_GAP` (40), the resolver rejects as ambiguous. -/
theorem findPdfByName_ambiguous (q : List Char) (table : List Row)
    (h4 : 4 ≤ (normalizeName q).length) (h2 : 2 ≤ table.length)
    (hbest : 140 ≤ (scanTable (normalizeName q) table).2.1)
    (hgap : (scanTable (normalizeName q) table).2.1 -
        (scanTable (normalizeName q) table).2.2 < 40) :
    findPdfByName q table = none := by
  cases table with
  | nil => simp at h2
  | cons r1 t =>
    cases t with
    | nil => simp at h2
    | cons r2 rest =>
      have hs1 := scoreMatch_nonneg (normalizeName q) (normalizeName r1.pdf_name)
      have hs2 := scoreMatch_nonneg (normalizeName q) (normalizeName r2.pdf_name)
      have hacc2 : 0 ≤ (scanStep (normalizeName q)
            (scanStep (normalizeName q) (none, -1, -1) r1) r2).2.2 ∧
          (scanStep (normalizeName q)
            (scanStep (normalizeName q) (none, -1, -1) r1) r2).2.2 ≤
          (scanStep (normalizeName q)
            (scanStep (normalizeName q) (none, -1, -1) r1) r2).2.1 := by
        rw [scanStep_init]
        rw [scanStep_eq]
        split_ifs with hA hB <;> (try dsimp only at *) <;>
          constructor <;> omega
      have hfin2 : 0 ≤ (scanTable (normalizeName q) (r1 :: r2 :: rest)).2.2 := by
        unfold scanTable
        rw [List.foldl_cons, List.foldl_cons]
        exact le_trans hacc2.1
          (scan_snd_mono (normalizeName q) rest _ hacc2.2)
      rw [findPdfByName_eq q (r1 :: r2 :: rest) h4]
      have hms : MIN_SCORE = (140 : Int) := rfl
      have hmg : MIN_GAP = (40 : Int) := rfl
      rw [if_neg (by omega), if_pos ⟨by omega, by omega⟩]

/-- Witness for C3, which is also the spec's own example: on the table
`["Unit 1 Flip Book", "Unit 1 Flip Chart"]` the query `"unit 1"` scores
700 against both rows, so the gap is 0 and the resolver rejects. -/
theorem findPdfByName_ambiguous_witness :
    findPdfByName ("unit 1".toList) [rowUnitBook, rowUnitChart] = none :=
  findPdfByName_ambiguous ("unit 1".toList) [rowUnitBook, rowUnitChart]
    (by decide) (by decide) (by decide) (by decide)

/-- Counterexample to C2 as stated: on the table
`["X Flip Chart", "Y Flip Chart"]` the query `"flip chart"` (normalized
length 10) gives both records the identical maximal score 700, yet
`findPdfByName` returns `none` — not the first record in table order —
because the strict-`>` scan leaves `secondBestScore = bestScore` and the
ambiguity gap check fires. -/
theorem findPdfByName_tie_cex :
    4 ≤ (normalizeName ("flip chart".toList)).length ∧
    scoreMatch (normalizeName ("flip chart".toList))
      (normalizeName rowFlipX.pdf_name) = 700 ∧
    scoreMatch (normalizeName ("flip chart".toList))
      (normalizeName rowFlipY.pdf_name) = 700 ∧
    findPdfByName ("flip chart".toList) [rowFlipX, rowFlipY] = none ∧
    findPdfByName ("flip chart".toList) [rowFlipX, rowFlipY] ≠
      some rowFlipX := by
  refine ⟨by decide, by decide, by decide, by decide, by decide⟩

/-- C2 (amended): when two records (at positions `i < j`) share the
identical maximal score for the query, `findPdfByName` returns `none`:
the strict-`>` scan does keep the FIRST maximal record as `best`, but the
tied maximum makes `secondBestScore = bestScore`, so the result is
rejected (as ambiguous when the score reaches `MIN_SCORE`, as weak
otherwise) rather than returned. -/
theorem findPdfByName_tie_returns_none (q : List Char) (table : List Row)
    (i j : Nat) (hi : i < table.length) (hj : j < table.length) (hij : i < j)
    (h4 : 4 ≤ (normalizeName q).length)
    (hmax : ∀ r ∈ table,
      scoreMatch (normalizeName q) (normalizeName r.pdf_name) ≤
        scoreMatch (normalizeName q)
          (normalizeName (table.get ⟨i, hi⟩).pdf_name))
    (heq : scoreMatch (normalizeName q)
        (normalizeName (table.get ⟨j, hj⟩).pdf_name) =
      scoreMatch (normalizeName q)
        (normalizeName (table.get ⟨i, hi⟩).pdf_name)) :
    findPdfByName q table = none := by
  have hM0 : 0 ≤ scoreMatch (normalizeName q)
      (normalizeName (table.get ⟨i, hi⟩).pdf_name) := scoreMatch_nonneg _ _
  have hsplit : table =
      table.take j ++ table.get ⟨j, hj⟩ :: table.drop (j + 1) := by
    conv_lhs => rw [← List.take_append_drop j table]
    rw [List.drop_eq_getElem_cons hj, List.get_eq_getElem]
  -- the accumulator after the first j rows has bestScore = M
  have hallA : ∀ r ∈ table.take j,
      scoreMatch (normalizeName q) (normalizeName r.pdf_name) ≤
        scoreMatch (normalizeName q)
          (normalizeName (table.get ⟨i, hi⟩).pdf_name) :=
    fun r hr => hmax r (List.take_subset j table hr)
  have hmemA : table.get ⟨i, hi⟩ ∈ table.take j := by
    rw [List.get_eq_getElem, List.getElem_take' table hi hij]
    exact List.getElem_mem _
  have haccA1 : (List.foldl (scanStep (normalizeName q)) (none, -1, -1)
      (table.take j)).2.1 =
      scoreMatch (normalizeName q)
        (normalizeName (table.get ⟨i, hi⟩).pdf_name) := by
    apply le_antisymm
    · exact scan_best_le (normalizeName q) (table.take j) (none, -1, -1)
        hallA (show (-1 : Int) ≤ _ by omega)
    · exact scan_best_ge_mem (normalizeName q) (table.take j) (none, -1, -1)
        _ hmemA
  have haccA21 : (List.foldl (scanStep (normalizeName q)) (none, -1, -1)
      (table.take j)).2.2 ≤
      (List.foldl (scanStep (normalizeName q)) (none, -1, -1)
        (table.take j)).2.1 :=
    scan_snd_le_fst (normalizeName q) (table.take j) (none, -1, -1)
      (show (-1 : Int) ≤ -1 by omega)
  obtain ⟨hB1, hB2, hB3⟩ := scanStep_tie (normalizeName q)
    (List.foldl (scanStep (normalizeName q)) (none, -1, -1) (table.take j))
    (table.get ⟨j, hj⟩) heq haccA1 haccA21
  have hfold : List.foldl (scanStep (normalizeName q)) (none, -1, -1)
      (table.take j ++ table.get ⟨j, hj⟩ :: table.drop (j + 1)) =
      scanTable (normalizeName q) table := by
    rw [scanTable, ← hsplit]
  have hresult : (scanTable (normalizeName q) table).2.1 =
      scoreMatch (normalizeName q)
        (normalizeName (table.get ⟨i, hi⟩).pdf_name) ∧
      scoreMatch (normalizeName q)
        (normalizeName (table.get ⟨i, hi⟩).pdf_name) ≤
        (scanTable (normalizeName q) table).2.2 ∧
      (scanTable (normalizeName q) table).2.2 ≤
        (scanTable (normalizeName q) table).2.1 := by
    rw [← hfold, List.foldl_append, List.foldl_cons]
    refine ⟨le_antisymm ?_ ?_, ?_, ?_⟩
    · exact scan_best_le (normalizeName q) (table.drop (j + 1)) _
        (fun r hr => hmax r (List.drop_subset _ _ hr)) (le_of_eq hB1)
    · exact le_trans (le_of_eq hB1.symm)
        (scan_best_mono (normalizeName q) (table.drop (j + 1)) _)
    · exact le_trans hB2
        (scan_snd_mono (normalizeName q) (table.drop (j + 1)) _ hB3)
    · exact scan_snd_le_fst (normalizeName q) (table.drop (j + 1)) _ hB3
  obtain ⟨hf1, hf2, hf3⟩ := hresult
  rw [findPdfByName_eq q table h4]
  have hms : MIN_SCORE = (140 : Int) := rfl
  have hmg : MIN_GAP = (40 : Int) := rfl
  by_cases hcase : (scanTable (normalizeName q) table).2.1 < MIN_SCORE
  · rw [if_pos hcase]
  · rw [if_neg hcase, if_pos ⟨by omega, by omega⟩]

/-- Witness for the amended C2: on the tied table
`["X Flip Chart", "Y Flip Chart"]` with query `"flip chart"` (both rows
score 700, positions 0 < 1), the resolver returns `none`. -/
theorem findPdfByName_tie_returns_none_witness :
    findPdfByName ("flip chart".toList) [rowFlipX, rowFlipY] = none :=
  findPdfByName_tie_returns_none ("flip chart".toList) [rowFlipX, rowFlipY]
    0 1 (by decide) (by decide) (by decide) (by decide) (by decide)
    (by decide)

/-- C9: the resolver is read-only and closed over the table: a non-null
result is literally one of the records of the scanned table (hence its
`keyword`, `pdf_name` and `pdf_link` fields are returned exactly as
stored — `findPdfByName` yields the record value itself, and being a pure
function it cannot mutate the table); on the empty table the result is
always `none`. -/
theorem findPdfByName_result_mem :
    (∀ (q : List Char) (table : List Row) (r : Row),
      findPdfByName q table = some r → r ∈ table) ∧
    (∀ q : List Char, findPdfByName q [] = none) := by
  constructor
  · intro q table r h
    unfold findPdfByName at h
    dsimp only at h
    split_ifs at h with hE hL hS hG
    rcases scan_fst_mem (normalizeName q) table (none, -1, -1) r h with
      h' | h'
    · exact Option.noConfusion h'
    · exact h'
  · intro q
    unfold findPdfByName
    dsimp only
    split_ifs with hE hL hS hG
    all_goals rfl

/-- Witness for C9: an exact-match query on a singleton table returns
that very record (which is a member), and the empty table yields
`none`. -/
theorem findPdfByName_result_mem_witness :
    rowWelcome ∈ [rowWelcome] ∧
    findPdfByName ("welcome".toList) [] = none :=
  ⟨findPdfByName_result_mem.1 ("grade 1 welcome letter".toList)
      [rowWelcome] rowWelcome (by decide),
   findPdfByName_result_mem.2 ("welcome".toList)⟩

/-- C10: on a one-record table (and a query of normalized length at least
4) the second-best score keeps its sentinel `-1`, so the ambiguity gap
check is skipped, and the record is returned exactly when its score
reaches `MIN_SCORE` (140). -/
theorem findPdfByName_singleton (q : List Char) (r : Row)
    (h4 : 4 ≤ (normalizeName q).length) :
    (scanTable (normalizeName q) [r]).2.2 = -1 ∧
    (findPdfByName q [r] = some r ↔
      140 ≤ scoreMatch (normalizeName q) (normalizeName r.pdf_name)) := by
  have hscan : scanTable (normalizeName q) [r] =
      (some r, scoreMatch (normalizeName q) (normalizeName r.pdf_name), -1) := by
    unfold scanTable
    rw [List.foldl_cons, List.foldl_nil, scanStep_init]
  refine ⟨by rw [hscan], ?_⟩
  rw [findPdfByName_eq q [r] h4, hscan]
  have hms : MIN_SCORE = (140 : Int) := rfl
  have hmg : MIN_GAP = (40 : Int) := rfl
  constructor
  · intro h
    by_contra hlt
    rw [if_pos (show ((some r, scoreMatch (normalizeName q)
        (normalizeName r.pdf_name), -1) :
          Option Row × Int × Int).2.1 < MIN_SCORE by
      dsimp only
      omega)] at h
    exact Option.noConfusion h
  · intro h
    rw [if_neg (show ¬ ((some r, scoreMatch (normalizeName q)
        (normalizeName r.pdf_name), -1) :
          Option Row × Int × Int).2.1 < MIN_SCORE by
      dsimp only
      omega)]
    rw [if_neg (by
      dsimp only
      intro hcon
      exact hcon.1 rfl)]

/-- Witness for C10 at a concrete exact match: the single record
"Grade 1 Welcome Letter" is returned for its own name (score 1000 ≥ 140),
with the second-best score still `-1`. -/
theorem findPdfByName_singleton_witness :
    4 ≤ (normalizeName ("grade 1 welcome letter".toList)).length ∧
    ((scanTable (normalizeName ("grade 1 welcome letter".toList))
        [rowWelcome]).2.2 = -1 ∧
     (findPdfByName ("grade 1 welcome letter".toList) [rowWelcome] =
        some rowWelcome ↔
      140 ≤ scoreMatch (normalizeName ("grade 1 welcome letter".toList))
        (normalizeName rowWelcome.pdf_name))) :=
  ⟨by decide,
   findPdfByName_singleton ("grade 1 welcome letter".toList) rowWelcome
     (by decide)⟩
